import Mathlib

/-!
Shallow embedding of the core coordination subsystems of the repository
(ResourcePool, DIContainer, capability registry/executor, pipeline scheduler,
StreamEventBus), together with theorems settling the frozen claims about them.

Conventions of the embedding:
* resources and payloads are identified by natural numbers; the code never
  inspects them, so an opaque identifier is faithful;
* a JS `Set` becomes a `Finset Nat`; a JS `Map` becomes an association list
  (keys are unique in every use we model); a JS array becomes a `List`;
* `async` methods are split into their atomic segments: each Lean function
  below covers the code between two `await` suspension points, so that
  interleavings of concurrent calls can be replayed as explicit sequences of
  these atomic segments (the runtime is single-threaded and can only switch
  between logical operations at an `await`).
-/

namespace ResourcePool

/-- State of a `ResourcePool<T>` (src/src/lib/core/ResourcePool.ts): the
`available` array, the `inUse` set, the `waitingQueue` array (tickets are
identified by a number), and the `maxSize` bound. -/
structure PoolState where
  available : List Nat
  inUse : Finset Nat
  waitingQueue : List Nat
  maxSize : Nat
deriving DecidableEq

/-- What `acquire` did up to its first suspension point. -/
inductive AcquireStartOutcome where
  /-- an available resource was popped and the call is suspended inside
  `await this.validator(resource)`; the resource is in neither set. -/
  | validating (r : Nat)
  /-- no validator is configured: the popped resource was marked `inUse`
  and returned synchronously after the pop. -/
  | acquired (r : Nat)
  /-- the pool was empty and under the limit: the call is suspended inside
  `await this.factory()`. -/
  | creating
  /-- the pool was saturated: a wait ticket was pushed onto the queue. -/
  | queued (t : Nat)
deriving DecidableEq

/-- The synchronous prefix of `ResourcePool.acquire` (lines 79-128): pop the
last element of `available` if any (`Array.pop` takes the end), otherwise
create when `inUse.size < maxSize`, otherwise enqueue a wait ticket at the
back of `waitingQueue`. -/
def acquireStart (useValidator : Bool) (ticket : Nat) (s : PoolState) :
    PoolState × AcquireStartOutcome :=
  match s.available.getLast? with
  | some r =>
      let s1 : PoolState := { s with available := s.available.dropLast }
      if useValidator then (s1, .validating r)
      else ({ s1 with inUse := insert r s1.inUse }, .acquired r)
  | none =>
      if s.inUse.card < s.maxSize then (s, .creating)
      else ({ s with waitingQueue := s.waitingQueue ++ [ticket] }, .queued ticket)

/-- Outcome of resuming `acquire` after the validator settled. -/
inductive AcquireResumeOutcome where
  | acquired (r : Nat)
  /-- the resource failed validation; the code destroys it and re-runs
  `this.acquire(timeoutMs)` from the top. -/
  | destroyedRetry (r : Nat)
deriving DecidableEq

/-- Resumption of `acquire` after `await this.validator(resource)` returned
`ok` (lines 88-100): on success the resource is added to `inUse` and
returned; on failure it is destroyed and acquisition restarts. -/
def acquireValidated (s : PoolState) (r : Nat) (ok : Bool) :
    PoolState × AcquireResumeOutcome :=
  if ok then ({ s with inUse := insert r s.inUse }, .acquired r)
  else (s, .destroyedRetry r)

/-- Resumption of `acquire` after `await this.factory()` produced resource
`r` (lines 106-109): the new resource is added to `inUse` and returned. -/
def acquireCreated (s : PoolState) (r : Nat) : PoolState :=
  { s with inUse := insert r s.inUse }

/-- Observable outcome of `ResourcePool.release`. -/
inductive ReleaseOutcome where
  /-- the resource was not in `inUse`: warning logged, nothing changed. -/
  | ignoredNotInUse
  /-- no waiter: the resource was pushed onto `available`. -/
  | toAvailable
  /-- the oldest wait ticket was resolved with the resource. -/
  | servedWaiter (t : Nat) (r : Nat)
  /-- the resource failed re-validation: it was destroyed and the oldest
  wait ticket was rejected. -/
  | rejectedWaiter (t : Nat)
deriving DecidableEq

/-- `ResourcePool.release` (lines 134-170): a no-op when the resource is not
`inUse`; otherwise remove it from `inUse`, then either serve the ticket at
the front of `waitingQueue` (re-validating first when a validator is
configured) or push the resource back onto `available`.  The validator call
is a suspension point in the code; this function models one `release` run to
completion, which is the shape all release-claims quantify over. -/
def release (useValidator : Bool) (valid : Nat → Bool) (s : PoolState) (r : Nat) :
    PoolState × ReleaseOutcome :=
  if r ∈ s.inUse then
    let s1 : PoolState := { s with inUse := s.inUse.erase r }
    match s1.waitingQueue with
    | [] => ({ s1 with available := s1.available ++ [r] }, .toAvailable)
    | w :: rest =>
        let s2 : PoolState := { s1 with waitingQueue := rest }
        if useValidator && !(valid r) then (s2, .rejectedWaiter w)
        else ({ s2 with inUse := insert r s2.inUse }, .servedWaiter w r)
  else (s, .ignoredNotInUse)

/-- Initial state for the pool-bound interleaving: one idle resource `5`,
`maxSize := 1`, a validator configured. -/
def poolBugS0 : PoolState := { available := [5], inUse := ∅, waitingQueue := [], maxSize := 1 }

end ResourcePool

namespace DIContainer

/-- A `ServiceRegistration` entry (src/unnamed/part_002): the cached
instance (if any), whether a factory function is present (the factory body
is supplied externally, see `resolveAux`), the singleton flag, and the
declared dependency tokens.  Instances are identified by natural numbers. -/
structure Registration where
  instanceVal : Option Nat
  hasFactory : Bool
  singleton : Bool
  dependencies : List String
deriving DecidableEq

/-- The `services` map of the container, as an association list with unique
keys (JS `Map` semantics). -/
def Services := List (String × Registration)

/-- Errors thrown by `DIContainer.resolve`; `outOfFuel` is an artifact of
the bounded-recursion embedding and never occurs for sufficient fuel. -/
inductive ResolveErr where
  | circular (t : String)
  | notFound (t : String)
  | noFactory (t : String)
  | outOfFuel
deriving DecidableEq

/-- Cache a singleton instance (`registration.instance = instance`). -/
def setInstance (st : Services) (t : String) (v : Nat) : Services :=
  (st : List (String × Registration)).map
    (fun p => if p.1 = t then (p.1, { p.2 with instanceVal := some v }) else p)

/-- One step of resolution.  `Sum.inl token` is a re-entry of
`DIContainer.resolve(token)`; `Sum.inr deps` is the loop that resolves the
declared dependency tokens in order before the factory is invoked.  The
`stack` argument is the `resolutionStack` as seen by this call (each frame
passes `token :: stack` to its children, which models the `finally` block
removing the token on exit, successful or not).  `log` records every
factory invocation in order; `fact` gives the value each factory produces.
Errors carry the services map and the log at the point of the throw, since
JS exceptions do not roll back mutations. -/
def resolveAux (fact : String → Nat) :
    Nat → Services → List String → List String → Sum String (List String) →
    Except (ResolveErr × Services × List String) (Services × List String)
  | 0, st, _, log, _ => .error (.outOfFuel, st, log)
  | _ + 1, st, _, log, .inr [] => .ok (st, log)
  | fuel + 1, st, stack, log, .inr (d :: ds) =>
      match resolveAux fact fuel st stack log (.inl d) with
      | .error e => .error e
      | .ok (st1, log1) => resolveAux fact fuel st1 stack log1 (.inr ds)
  | fuel + 1, st, stack, log, .inl token =>
      if token ∈ stack then .error (.circular token, st, log)
      else
        match (st : List (String × Registration)).lookup token with
        | none => .error (.notFound token, st, log)
        | some reg =>
            if reg.singleton && reg.instanceVal.isSome then .ok (st, log)
            else if reg.hasFactory then
              match resolveAux fact fuel st (token :: stack) log (.inr reg.dependencies) with
              | .error e => .error e
              | .ok (st1, log1) =>
                  let st2 := if reg.singleton then setInstance st1 token (fact token)
                             else st1
                  .ok (st2, log1 ++ [token])
            else .error (.noFactory token, st, log)

/-- `DIContainer.resolve(token)` on a container whose services map is `st`,
starting from an empty resolution stack and an empty factory-invocation
log. -/
def resolve (fact : String → Nat) (fuel : Nat) (st : Services) (token : String) :
    Except (ResolveErr × Services × List String) (Services × List String) :=
  resolveAux fact fuel st [] [] (.inl token)

end DIContainer

namespace StreamEventBus

/-- A `StreamEvent` as far as the buffer and `waitFor` claims observe it:
its type string and an opaque payload.  The generated id and timestamp play
no role in the buffered order or in matching. -/
structure SEvent where
  etype : String
  payload : Nat
deriving DecidableEq

/-- The `while (buffer.length > bufferSize) buffer.shift()` loop of
`StreamEventBus.addToBuffer` (lines 1032-1035): drop from the front until
the buffer fits. -/
def trimBuffer (size : Nat) : List SEvent → List SEvent
  | [] => []
  | e :: rest => if size < (e :: rest).length then trimBuffer size rest else e :: rest

/-- `StreamEventBus.addToBuffer` (lines 1029-1036): push the event at the
back, then trim from the front down to `bufferSize`. -/
def addToBuffer (size : Nat) (buf : List SEvent) (e : SEvent) : List SEvent :=
  trimBuffer size (buf ++ [e])

/-- The buffer contents after a sequence of successful emissions into a bus
that started with an empty buffer (each successful `emitStreamEvent` ends in
one `addToBuffer` call, in emission order). -/
def bufferAfterEmits (size : Nat) (events : List SEvent) : List SEvent :=
  events.foldl (addToBuffer size) []

/-- `StreamEventBus.replay` (lines 867-879): the list of events delivered to
the listener, in buffer order, optionally filtered. -/
def replayDelivered (buf : List SEvent) (filt : Option (SEvent → Bool)) : List SEvent :=
  match filt with
  | none => buf
  | some f => buf.filter f

/-- State of one pending `waitFor` call: whether the `once` listener is
still registered, and the resolution value if the promise has resolved. -/
def waitForStep (etype : String) (filt : SEvent → Bool)
    (st : Bool × Option SEvent) (e : SEvent) : Bool × Option SEvent :=
  if st.1 && (e.etype == etype) then (false, if filt e then some e else st.2)
  else st

/-- The resolution (if any) of `StreamEventBus.waitFor(etype, _, filt)`
against the sequence of events emitted after the call (lines 842-862).  The
handler is registered with `super.once(eventType, handler)`, so the Node
`EventEmitter` removes it when the first event of that type is emitted,
whether or not the filter accepts the event; the promise resolves only if
that first event passes the filter. -/
def waitForOutcome (etype : String) (filt : SEvent → Bool)
    (events : List SEvent) : Option SEvent :=
  (events.foldl (waitForStep etype filt) (true, none)).2

/-- The behavior claim C9 asserts, written from the words of the spec
sentence: the promise resolves with the first subsequently emitted event of
the requested type that satisfies the filter. -/
def waitForSpecClaimed (etype : String) (filt : SEvent → Bool)
    (events : List SEvent) : Option SEvent :=
  events.find? (fun e => e.etype == etype && filt e)

end StreamEventBus

namespace AgentCapability

/-- An `AgentCapabilityRequest` as the registry and executor observe it:
its id, its type string, and an opaque payload. -/
structure CapRequest where
  id : String
  rtype : String
  payload : Nat
deriving DecidableEq

/-- A capability instance as held by `AgentCapabilityRegistry`
(src/src/lib/agent/core/AgentCapability.ts): its name, `enabled` flag,
declared `priority`, and its `canHandle` predicate. -/
structure Capability where
  name : String
  enabled : Bool
  priority : Int
  canHandle : CapRequest → Bool

/-- The enabled instances whose `canHandle` accepts the request, in
registration order (iteration over `capabilityInstances.values()` follows
JS `Map` insertion order), before sorting — the loop body of
`getCapabilitiesForRequest` (lines 293-300). -/
def matchingCapabilities (regs : List Capability) (r : CapRequest) : List Capability :=
  regs.filter (fun c => c.enabled && c.canHandle r)

/-- Stable insertion used to model the final
`capabilities.sort((a, b) => b.priority - a.priority)` (line 303):
ECMA-262 requires `Array.prototype.sort` to be stable, so the sorted list
is the unique permutation that is descending by priority and preserves the
original relative order of equal priorities; `insertByPriority` places the
earlier element in front of every element of equal or lower priority. -/
def insertByPriority (c : Capability) : List Capability → List Capability
  | [] => [c]
  | d :: ds => if d.priority ≤ c.priority then c :: d :: ds else d :: insertByPriority c ds

/-- Stable sort by descending priority (see `insertByPriority`). -/
def sortByPriorityDesc : List Capability → List Capability
  | [] => []
  | c :: cs => insertByPriority c (sortByPriorityDesc cs)

/-- `AgentCapabilityRegistry.getCapabilitiesForRequest` (lines 293-304). -/
def getCapabilitiesForRequest (regs : List Capability) (r : CapRequest) : List Capability :=
  sortByPriorityDesc (matchingCapabilities regs r)

/-- The first element of a list attaining the maximal priority. -/
def firstMaxPriority : List Capability → Option Capability
  | [] => none
  | c :: cs =>
      match firstMaxPriority cs with
      | none => some c
      | some m => if c.priority < m.priority then some m else some c

/-- An `AgentCapabilityResponse` as the executor returns it: the request
id, the success flag, the error message (if any), an opaque result value,
and the stamped duration. -/
structure CapResponse where
  requestId : String
  success : Bool
  errorMsg : Option String
  value : Option Nat
  duration : Nat
deriving DecidableEq

/-- What one call of `CapabilityExecutor.execute` did: which capability
instance (if any) was invoked, and the response returned to the caller. -/
structure ExecOutcome where
  invoked : Option Capability
  response : CapResponse

/-- `CapabilityExecutor.execute` (lines 395-451): take the sorted matching
capabilities; if none, the `throw` inside the `try` is caught and converted
into a failure response carrying the no-capability message, the request id
and the elapsed duration — the method itself returns normally (this
function is total).  Otherwise the head of the sorted list (the line
`const capability = capabilities[0]`) is invoked and the elapsed duration
is stamped onto its response.  `capBehavior` supplies the response each
capability produces; `startTime` and `endTime` are the two `Date.now()`
readings. -/
def execute (regs : List Capability) (capBehavior : Capability → CapRequest → CapResponse)
    (startTime endTime : Nat) (r : CapRequest) : ExecOutcome :=
  match getCapabilitiesForRequest regs r with
  | [] =>
      { invoked := none
        response :=
          { requestId := r.id, success := false
            errorMsg := some ("No capability found to handle request type: " ++ r.rtype)
            value := none, duration := endTime - startTime } }
  | c :: _ =>
      let resp := capBehavior c r
      { invoked := some c, response := { resp with duration := endTime - startTime } }

end AgentCapability

namespace EnhancedExecutionPipeline

/-- A `PipelineStage` as the scheduler observes it
(src/src/lib/runtime/EnhancedExecutionPipeline.ts): its id, its dependency
stage ids, and the `optional` flag.  The `name`, `type`, `config`,
`timeout` and `retryCount` fields play no role in wave construction or in
the failure-containment semantics settled here; the stage type only selects
which pluggable stage executor runs the stage, and executor behavior is
abstracted by the `exec` parameter below. -/
structure PStage where
  id : String
  deps : List String
  optional : Bool
deriving DecidableEq

/-- `visited.add(id)` on the JS `Set` of visited stage ids, represented as
the list of its elements in insertion order, so that `visited.length`
equals `visited.size`. -/
def addVisited (visited : List String) (id : String) : List String :=
  if id ∈ visited then visited else visited ++ [id]

/-- `currentGroup.forEach(stage => visited.add(stage.id))` (line 241). -/
def addAllVisited (visited : List String) (ids : List String) : List String :=
  ids.foldl addVisited visited

/-- One pass of the `for (const stage of stages)` loop of
`buildExecutionOrder` (lines 222-233): the not-yet-visited stages whose
dependencies are all already visited, in input list order. -/
def readyGroup (stages : List PStage) (visited : List String) : List PStage :=
  stages.filter (fun s => !(visited.contains s.id) && s.deps.all (fun d => visited.contains d))

/-- The message of the error thrown on a stuck iteration (line 237). -/
def circularMsg : String := "Circular dependency detected in pipeline stages"

/-- The `while (visited.size < stages.length)` loop of `buildExecutionOrder`
(lines 215-245).  The fuel argument only bounds the iteration count;
`stages.length + 1` iterations always suffice because every non-erroring
iteration visits at least one new stage id, so the `fuel exhausted` branch
is unreachable from `buildExecutionOrder`. -/
def buildOrderLoop (stages : List PStage) :
    Nat → List String → List (List PStage) → Except String (List (List PStage))
  | 0, _, _ => .error "fuel exhausted"
  | fuel + 1, visited, acc =>
      if visited.length < stages.length then
        let group := readyGroup stages visited
        if group.isEmpty then .error circularMsg
        else buildOrderLoop stages fuel
          (addAllVisited visited (group.map PStage.id)) (acc ++ [group])
      else .ok acc

/-- `EnhancedExecutionPipeline.buildExecutionOrder` (lines 215-245). -/
def buildExecutionOrder (stages : List PStage) : Except String (List (List PStage)) :=
  buildOrderLoop stages (stages.length + 1) [] []

/-- An entry of the `context.stageResults` map. -/
inductive StageOutcome where
  /-- the value the stage executor returned. -/
  | value (v : Nat)
  /-- the record `stageResults.set(stage.id, error, optional: true)` left by
  a tolerated optional-stage failure (lines 195-198). -/
  | failedOptional (e : String)
deriving DecidableEq

/-- `Map.set` on `context.stageResults`: overwrite an existing key in
place, otherwise append at the end. -/
def mapSet (m : List (String × StageOutcome)) (k : String) (v : StageOutcome) :
    List (String × StageOutcome) :=
  if m.any (fun p => p.1 == k) then m.map (fun p => if p.1 == k then (k, v) else p)
  else m ++ [(k, v)]

/-- `EnhancedExecutionPipeline.executeStage` (lines 168-210): run the stage
executor; on success record the result; on a throw rethrow for a
non-optional stage, or record a failed-but-tolerated entry for an optional
one and continue.  `exec` abstracts `executor.execute(stage, stageContext)`
(the executor is looked up by stage type and invoked in both branches). -/
def executeStage (exec : PStage → Except String Nat) (stage : PStage)
    (results : List (String × StageOutcome)) :
    Except String (List (String × StageOutcome)) :=
  match exec stage with
  | .ok v => .ok (mapSet results stage.id (.value v))
  | .error e =>
      if stage.optional then .ok (mapSet results stage.id (.failedOptional e))
      else .error e

/-- Sequential execution of one wave: the `for (const stage of stageGroup)`
branch of `executeStages` (lines 144-148).  (The parallel branch runs the
same stages via `Promise.all`; the claims settled here are about the
sequential mode.)  Returns the outcome together with the ids of the stages
whose executor was invoked, in invocation order; on an aborting failure the
partially filled result map of the in-flight wave is discarded, which no
claim observes. -/
def runWave (exec : PStage → Except String Nat) :
    List PStage → List (String × StageOutcome) →
    Except String (List (String × StageOutcome)) × List String
  | [], results => (.ok results, [])
  | s :: rest, results =>
      match executeStage exec s results with
      | .error e => (.error e, [s.id])
      | .ok results1 =>
          let out := runWave exec rest results1
          (out.1, s.id :: out.2)

/-- The wave loop of `executeStages` (lines 138-162): run the waves in
order; a later wave starts only after the previous wave finished. -/
def runWaves (exec : PStage → Except String Nat) :
    List (List PStage) → List (String × StageOutcome) →
    Except String (List (String × StageOutcome)) × List String
  | [], results => (.ok results, [])
  | w :: ws, results =>
      match runWave exec w results with
      | (.error e, log) => (.error e, log)
      | (.ok results1, log) =>
          let out := runWaves exec ws results1
          (out.1, log ++ out.2)

/-- The observable outcome of one `EnhancedExecutionPipeline.execute` call
(lines 79-125): the final `status`, the recorded `error` (if any), the
final stage-result map, and the ids of the invoked stage executors.  On a
failure the partially filled stage-result map is not modeled (no claim
observes it). -/
structure ExecutionOutcome where
  status : String
  errorMsg : Option String
  results : List (String × StageOutcome)
  invoked : List String

/-- `EnhancedExecutionPipeline.execute` around `executeStages` (lines
101-124 and 130-163): build the execution order first — a cycle error
propagates before any stage executor is invoked — then run the waves;
success sets status `completed`, a thrown error sets status `failed` and
records the error on the execution object. -/
def executePipeline (exec : PStage → Except String Nat) (stages : List PStage) :
    ExecutionOutcome :=
  match buildExecutionOrder stages with
  | .error e => ⟨"failed", some e, [], []⟩
  | .ok waves =>
      match runWaves exec waves [] with
      | (.ok results, log) => ⟨"completed", none, results, log⟩
      | (.error e, log) => ⟨"failed", some e, [], log⟩

/-- The diamond pipeline of the claim: A; B and C depend on A; D depends on
B and C. -/
def dA : PStage := ⟨"A", [], false⟩

/-- See `dA`. -/
def dB : PStage := ⟨"B", ["A"], false⟩

/-- See `dA`. -/
def dC : PStage := ⟨"C", ["A"], false⟩

/-- See `dA`. -/
def dD : PStage := ⟨"D", ["B", "C"], false⟩

/-- The diamond stage list in its reference order. -/
def diamondStages : List PStage := [dA, dB, dC, dD]

/-- The per-wave id sets computed by `buildExecutionOrder`, or `none` when
it throws: the order-insensitive view of the waves. -/
def waveIdSets (stages : List PStage) : Option (List (Finset String)) :=
  (buildExecutionOrder stages).toOption.map (List.map (fun w => (w.map PStage.id).toFinset))

/-- The dependency relation declared by the stage list contains a cycle:
some nonempty set `S` of stage ids is such that every stage whose id lies in
`S` has a dependency in `S` (the ids along any dependency cycle form such a
set). -/
def HasCycle (stages : List PStage) : Prop :=
  ∃ S : Finset String, S.Nonempty ∧
    ∀ id ∈ S, ∃ s ∈ stages, s.id = id ∧ ∃ d ∈ s.deps, d ∈ S

/-- `context.stageResults.get(id)`: look a stage id up in the result map. -/
def lookupResult : List (String × StageOutcome) → String → Option StageOutcome
  | [], _ => none
  | p :: rest, k => if p.1 = k then some p.2 else lookupResult rest k

/-- The stage executor either succeeds or the failure is tolerated because
the stage is optional: the condition under which `executeStage` does not
abort the pipeline. -/
def stageTolerated (exec : PStage → Except String Nat) (s : PStage) : Prop :=
  s.optional = true ∨ ∃ v, exec s = .ok v

/-- The entry `executeStage` writes for a stage that did not abort. -/
def stageRecord (exec : PStage → Except String Nat) (s : PStage) : StageOutcome :=
  match exec s with
  | .ok v => .value v
  | .error e => .failedOptional e

end EnhancedExecutionPipeline

namespace ResourcePool

/-- Claim C1: the spec states that `inUse.size ≤ maxSize` (and
`available.size + inUse.size ≤ maxSize`) holds at every observation point,
including across the suspension points inside the validate-then-mark step of
`acquire`.  The code violates this: with `maxSize = 1` and one available
resource, caller 1 pops the resource and suspends at `await validator`;
caller 2 then sees `available` empty and `inUse.size = 0 < 1` and suspends
at `await factory`; the factory returns resource `6` which is added to
`inUse`; caller 1 resumes with a passing validation and adds resource `5` as
well, so `inUse.size = 2 > maxSize = 1`. -/
theorem pool_bound_violated_by_interleaving :
    (acquireStart true 0 poolBugS0).2 = AcquireStartOutcome.validating 5 ∧
    (acquireStart true 1 (acquireStart true 0 poolBugS0).1).2 =
      AcquireStartOutcome.creating ∧
    (let s1 := (acquireStart true 0 poolBugS0).1
     let s2 := (acquireStart true 1 s1).1
     let s3 := acquireCreated s2 6
     let s4 := (acquireValidated s3 5 true).1
     s4.inUse.card = 2 ∧ s4.maxSize = 1 ∧ ¬ s4.inUse.card ≤ s4.maxSize) := by
  decide

/-- Claim C10: releasing a resource that is not in the `inUse` set returns
normally and leaves the pool state exactly unchanged. -/
theorem release_not_inUse_noop (useValidator : Bool) (valid : Nat → Bool)
    (s : PoolState) (r : Nat) (h : r ∉ s.inUse) :
    release useValidator valid s r = (s, ReleaseOutcome.ignoredNotInUse) := by
  simp [release, h]

/-- Witness for `release_not_inUse_noop` at a concrete pool state. -/
theorem release_not_inUse_noop_witness :
    3 ∉ (poolBugS0 : PoolState).inUse ∧
    release true (fun _ => true) poolBugS0 3 = (poolBugS0, ReleaseOutcome.ignoredNotInUse) :=
  ⟨by decide, release_not_inUse_noop true (fun _ => true) poolBugS0 3 (by decide)⟩

/-- Claim C3: when the pool is saturated (no available resource,
`inUse.size ≥ maxSize`) and waiters `w1` then `w2` enqueue, the queue holds
them in arrival order, and a single release of an in-use resource that
passes validation resolves `w1` (the front of the queue), leaving `w2`
queued. -/
theorem release_serves_fifo (useValidator : Bool) (valid : Nat → Bool)
    (s : PoolState) (w1 w2 r : Nat)
    (hAvail : s.available = []) (hSat : s.maxSize ≤ s.inUse.card)
    (hQueue : s.waitingQueue = []) (hr : r ∈ s.inUse) (hv : valid r = true) :
    (acquireStart useValidator w1 s).2 = AcquireStartOutcome.queued w1 ∧
    (acquireStart useValidator w2 (acquireStart useValidator w1 s).1).2 =
      AcquireStartOutcome.queued w2 ∧
    ((acquireStart useValidator w2 (acquireStart useValidator w1 s).1).1).waitingQueue =
      [w1, w2] ∧
    (release useValidator valid
      (acquireStart useValidator w2 (acquireStart useValidator w1 s).1).1 r).2 =
      ReleaseOutcome.servedWaiter w1 r ∧
    ((release useValidator valid
      (acquireStart useValidator w2 (acquireStart useValidator w1 s).1).1 r).1).waitingQueue =
      [w2] := by
  have hlt : ¬ s.inUse.card < s.maxSize := by omega
  simp [acquireStart, release, hAvail, hQueue, hlt, hr, hv]

/-- Witness for `release_serves_fifo`: pool of size one holding resource `0`
in use, waiters `1` then `2`. -/
theorem release_serves_fifo_witness :
    (let s : PoolState := { available := [], inUse := {0}, waitingQueue := [], maxSize := 1 }
     (acquireStart true 1 s).2 = AcquireStartOutcome.queued 1 ∧
     (acquireStart true 2 (acquireStart true 1 s).1).2 = AcquireStartOutcome.queued 2 ∧
     ((acquireStart true 2 (acquireStart true 1 s).1).1).waitingQueue = [1, 2] ∧
     (release true (fun _ => true)
       (acquireStart true 2 (acquireStart true 1 s).1).1 0).2 =
       ReleaseOutcome.servedWaiter 1 0 ∧
     ((release true (fun _ => true)
       (acquireStart true 2 (acquireStart true 1 s).1).1 0).1).waitingQueue = [2]) :=
  release_serves_fifo true (fun _ => true)
    { available := [], inUse := {0}, waitingQueue := [], maxSize := 1 }
    1 2 0 rfl (by decide) rfl (by decide) rfl

end ResourcePool

namespace DIContainer

/-- Claim C2: on any container whose registrations declare the cycle
A -> B -> A (both tokens bound to factories with no cached instance, A
depending on B and B depending on A, singleton flags and the rest of the
container arbitrary), `resolve "A"` throws a circular-dependency error
naming token A, and the factory-invocation log is empty: neither factory
ever ran, so no partial construction occurred.  The services map in the
error is the original one (no caching happened either). -/
theorem resolve_cycle_detected (fact : String → Nat) (fuel : Nat)
    (st : Services) (regA regB : Registration)
    (hA : (st : List (String × Registration)).lookup "A" = some regA)
    (hB : (st : List (String × Registration)).lookup "B" = some regB)
    (hAi : regA.instanceVal = none) (hBi : regB.instanceVal = none)
    (hAf : regA.hasFactory = true) (hBf : regB.hasFactory = true)
    (hAd : regA.dependencies = ["B"]) (hBd : regB.dependencies = ["A"]) :
    resolve fact (fuel + 5) st "A" =
      .error (ResolveErr.circular "A", st, []) := by
  simp [resolve, resolveAux, hA, hB, hAi, hBi, hAf, hBf, hAd, hBd]

/-- Witness for `resolve_cycle_detected`: the two-token container with the
declared cycle, resolved with fuel 5. -/
theorem resolve_cycle_detected_witness :
    resolve (fun _ => 0) 5
      [("A", ⟨none, true, true, ["B"]⟩), ("B", ⟨none, true, true, ["A"]⟩)] "A" =
      .error (ResolveErr.circular "A",
        [("A", ⟨none, true, true, ["B"]⟩), ("B", ⟨none, true, true, ["A"]⟩)], []) :=
  resolve_cycle_detected (fun _ => 0) 0
    [("A", ⟨none, true, true, ["B"]⟩), ("B", ⟨none, true, true, ["A"]⟩)]
    ⟨none, true, true, ["B"]⟩ ⟨none, true, true, ["A"]⟩
    rfl rfl rfl rfl rfl rfl rfl rfl

end DIContainer

namespace StreamEventBus

theorem trimBuffer_eq_drop (size : Nat) (buf : List SEvent) :
    trimBuffer size buf = buf.drop (buf.length - size) := by
  induction buf with
  | nil => simp [trimBuffer]
  | cons e rest ih =>
      rw [trimBuffer]
      by_cases h : size < (e :: rest).length
      · rw [if_pos h, ih]
        have hk : (e :: rest).length - size = (rest.length - size) + 1 := by
          simp only [List.length_cons] at h ⊢
          omega
        rw [hk, List.drop_succ_cons]
      · rw [if_neg h]
        have hk : (e :: rest).length - size = 0 := by
          simp only [List.length_cons] at h ⊢
          omega
        rw [hk, List.drop_zero]

theorem foldl_addToBuffer (size : Nat) (events : List SEvent) :
    ∀ buf : List SEvent, buf.length ≤ size →
      events.foldl (addToBuffer size) buf =
        (buf ++ events).drop (buf.length + events.length - size) := by
  induction events with
  | nil =>
      intro buf h
      simp [Nat.sub_eq_zero_of_le h]
  | cons e rest ih =>
      intro buf h
      have hstep : addToBuffer size buf e =
          (buf ++ [e]).drop (buf.length + 1 - size) := by
        rw [addToBuffer, trimBuffer_eq_drop]
        congr 1
        simp
      have hlen2 : ((buf ++ [e]).drop (buf.length + 1 - size)).length ≤ size := by
        simp
        omega
      have hrec := ih ((buf ++ [e]).drop (buf.length + 1 - size)) hlen2
      have hdlen : ((buf ++ [e]).drop (buf.length + 1 - size)).length =
          buf.length + 1 - (buf.length + 1 - size) := by simp
      have hle : buf.length + 1 - size ≤ (buf ++ [e]).length := by
        simp
      have hsplit : ((buf ++ [e]).drop (buf.length + 1 - size)) ++ rest =
          ((buf ++ [e]) ++ rest).drop (buf.length + 1 - size) := by
        rw [List.drop_append_of_le_length hle]
      rw [List.foldl_cons, hstep, hrec, hdlen, hsplit, List.drop_drop,
        List.append_cons buf e rest]
      congr 1
      simp only [List.length_cons]
      omega

/-- Claim C8: emitting `size + 1` events into a bus whose buffer capacity is
`size` leaves exactly the last `size` events in the buffer, in emission
order (the oldest event is evicted), and `replay` with no filter delivers
exactly that list to the listener in the same order. -/
theorem buffer_keeps_last_events (size : Nat) (events : List SEvent)
    (hlen : events.length = size + 1) :
    bufferAfterEmits size events = events.drop 1 ∧
    replayDelivered (bufferAfterEmits size events) none = events.drop 1 := by
  have h := foldl_addToBuffer size events [] (by simp)
  simp only [List.nil_append, List.length_nil, Nat.zero_add] at h
  rw [hlen] at h
  have h1 : size + 1 - size = 1 := by omega
  rw [h1] at h
  rw [bufferAfterEmits, h]
  exact ⟨rfl, rfl⟩

/-- Witness for `buffer_keeps_last_events`: capacity 2, three events. -/
theorem buffer_keeps_last_events_witness :
    bufferAfterEmits 2 [⟨"a", 0⟩, ⟨"b", 1⟩, ⟨"c", 2⟩] = [⟨"b", 1⟩, ⟨"c", 2⟩] ∧
    replayDelivered (bufferAfterEmits 2 [⟨"a", 0⟩, ⟨"b", 1⟩, ⟨"c", 2⟩]) none =
      [⟨"b", 1⟩, ⟨"c", 2⟩] :=
  buffer_keeps_last_events 2 [⟨"a", 0⟩, ⟨"b", 1⟩, ⟨"c", 2⟩] rfl

theorem waitForStep_stuck (etype : String) (filt : SEvent → Bool)
    (res : Option SEvent) (events : List SEvent) :
    events.foldl (waitForStep etype filt) (false, res) = (false, res) := by
  induction events with
  | nil => rfl
  | cons e rest ih => simp [waitForStep, ih]

/-- Claim C9 counterexample: with events of the requested type "T" emitted
in the order first-fails-filter then second-passes-filter, the code never
resolves (the `once` listener was consumed by the first event), while the
claim requires resolution with the second event. -/
theorem waitFor_filter_counterexample :
    waitForOutcome "T" (fun e => e.payload == 1) [⟨"T", 0⟩, ⟨"T", 1⟩] = none ∧
    waitForSpecClaimed "T" (fun e => e.payload == 1) [⟨"T", 0⟩, ⟨"T", 1⟩] =
      some ⟨"T", 1⟩ ∧
    (none : Option SEvent) ≠ some ⟨"T", 1⟩ := by
  refine ⟨rfl, rfl, by decide⟩

/-- Claim C9 as amended: `waitFor` resolves with the first subsequently
emitted event of the requested type if and only if that event satisfies the
filter; when the first event of the type fails the filter the promise never
resolves (so a configured timeout rejects it), and later matching events are
not observed.  With no filter (filter constantly true) this coincides with
the first event of the requested type. -/
theorem waitFor_resolves_on_first_of_type (etype : String)
    (filt : SEvent → Bool) (events : List SEvent) :
    waitForOutcome etype filt events =
      match events.find? (fun e => e.etype == etype) with
      | none => none
      | some e => if filt e then some e else none := by
  induction events with
  | nil => rfl
  | cons e rest ih =>
      by_cases h : e.etype = etype
      · have hb : (e.etype == etype) = true := by simp [h]
        by_cases hf : filt e = true
        · simp [waitForOutcome, List.find?, hb, waitForStep, hf, waitForStep_stuck]
        · simp [waitForOutcome, List.find?, hb, waitForStep, hf, waitForStep_stuck,
            Bool.eq_false_iff.mpr hf]
      · have hb : (e.etype == etype) = false := by simp [h]
        simpa [waitForOutcome, List.find?, hb, waitForStep] using ih

end StreamEventBus

namespace AgentCapability

theorem head_sortByPriorityDesc (l : List Capability) :
    (sortByPriorityDesc l).head? = firstMaxPriority l := by
  induction l with
  | nil => rfl
  | cons c cs ih =>
      rw [sortByPriorityDesc, firstMaxPriority]
      cases hs : sortByPriorityDesc cs with
      | nil =>
          rw [hs] at ih
          rw [← ih]
          rfl
      | cons d ds =>
          rw [hs] at ih
          rw [← ih]
          simp only [List.head?]
          by_cases h : d.priority ≤ c.priority
          · rw [insertByPriority, if_pos h, if_neg (not_lt.mpr h)]
          · rw [insertByPriority, if_neg h, if_pos (not_le.mp h)]

theorem firstMaxPriority_cons_none (c : Capability) (cs : List Capability)
    (hcs : firstMaxPriority cs = none) :
    firstMaxPriority (c :: cs) = some c := by
  rw [firstMaxPriority, hcs]

theorem firstMaxPriority_cons_some (c : Capability) (cs : List Capability)
    (m0 : Capability) (hcs : firstMaxPriority cs = some m0) :
    firstMaxPriority (c :: cs) =
      if c.priority < m0.priority then some m0 else some c := by
  rw [firstMaxPriority, hcs]

theorem firstMaxPriority_isSome (l : List Capability) (h : l ≠ []) :
    (firstMaxPriority l).isSome := by
  cases l with
  | nil => exact absurd rfl h
  | cons c cs =>
      cases hcs : firstMaxPriority cs with
      | none => rw [firstMaxPriority_cons_none c cs hcs]; rfl
      | some m =>
          rw [firstMaxPriority_cons_some c cs m hcs]
          by_cases hp : c.priority < m.priority
          · rw [if_pos hp]; rfl
          · rw [if_neg hp]; rfl

theorem firstMaxPriority_eq_none (l : List Capability)
    (h : firstMaxPriority l = none) : l = [] := by
  cases l with
  | nil => rfl
  | cons c cs =>
      exfalso
      cases hcs : firstMaxPriority cs with
      | none =>
          rw [firstMaxPriority_cons_none c cs hcs] at h
          exact Option.noConfusion h
      | some m =>
          rw [firstMaxPriority_cons_some c cs m hcs] at h
          by_cases hp : c.priority < m.priority
          · rw [if_pos hp] at h; exact Option.noConfusion h
          · rw [if_neg hp] at h; exact Option.noConfusion h

theorem firstMaxPriority_ge (l : List Capability) (m : Capability)
    (h : firstMaxPriority l = some m) : ∀ d ∈ l, d.priority ≤ m.priority := by
  induction l generalizing m with
  | nil => simp [firstMaxPriority] at h
  | cons c cs ih =>
      cases hcs : firstMaxPriority cs with
      | none =>
          have hnil : cs = [] := firstMaxPriority_eq_none cs hcs
          rw [firstMaxPriority_cons_none c cs hcs] at h
          have hcm := Option.some.inj h
          subst hcm
          subst hnil
          intro d hd
          simp at hd
          subst hd
          exact le_refl _
      | some m0 =>
          rw [firstMaxPriority_cons_some c cs m0 hcs] at h
          have hrest := ih m0 hcs
          by_cases hp : c.priority < m0.priority
          · rw [if_pos hp] at h
            have hm := Option.some.inj h
            subst hm
            intro d hd
            rcases List.mem_cons.mp hd with hd | hd
            · subst hd; exact le_of_lt hp
            · exact hrest d hd
          · rw [if_neg hp] at h
            have hm := Option.some.inj h
            subst hm
            intro d hd
            rcases List.mem_cons.mp hd with hd | hd
            · subst hd
              exact le_refl _
            · exact le_trans (hrest d hd) (not_lt.mp hp)

theorem firstMaxPriority_first (l : List Capability) (m : Capability)
    (h : firstMaxPriority l = some m) :
    ∃ l₁ l₂, l = l₁ ++ m :: l₂ ∧ ∀ d ∈ l₁, d.priority < m.priority := by
  induction l generalizing m with
  | nil => simp [firstMaxPriority] at h
  | cons c cs ih =>
      cases hcs : firstMaxPriority cs with
      | none =>
          rw [firstMaxPriority_cons_none c cs hcs] at h
          have hcm := Option.some.inj h
          subst hcm
          exact ⟨[], cs, rfl, by simp⟩
      | some m0 =>
          rw [firstMaxPriority_cons_some c cs m0 hcs] at h
          by_cases hp : c.priority < m0.priority
          · rw [if_pos hp] at h
            have hm := Option.some.inj h
            subst hm
            obtain ⟨l₁, l₂, heq, hlt⟩ := ih m0 hcs
            refine ⟨c :: l₁, l₂, by rw [heq]; rfl, ?_⟩
            intro d hd
            rcases List.mem_cons.mp hd with hd | hd
            · subst hd; exact hp
            · exact hlt d hd
          · rw [if_neg hp] at h
            have hm := Option.some.inj h
            subst hm
            exact ⟨[], cs, rfl, by simp⟩

theorem execute_invoked_eq_head (regs : List Capability)
    (capBehavior : Capability → CapRequest → CapResponse)
    (startTime endTime : Nat) (r : CapRequest) :
    (execute regs capBehavior startTime endTime r).invoked =
      (getCapabilitiesForRequest regs r).head? := by
  rw [execute]
  cases getCapabilitiesForRequest regs r <;> rfl

/-- Claim C5: whenever two or more enabled capabilities can handle the
request, `CapabilityExecutor.execute` invokes the matching capability `m`
of maximal declared priority, and among equal priorities the one earliest
in registration order: the matching list (which is in registration order)
splits as `l₁ ++ m :: l₂` with everything before `m` of strictly lower
priority. -/
theorem execute_picks_highest_priority (regs : List Capability)
    (capBehavior : Capability → CapRequest → CapResponse)
    (startTime endTime : Nat) (r : CapRequest)
    (h2 : 2 ≤ (matchingCapabilities regs r).length) :
    ∃ m, (execute regs capBehavior startTime endTime r).invoked = some m ∧
      m ∈ matchingCapabilities regs r ∧
      (∀ d ∈ matchingCapabilities regs r, d.priority ≤ m.priority) ∧
      ∃ l₁ l₂, matchingCapabilities regs r = l₁ ++ m :: l₂ ∧
        ∀ d ∈ l₁, d.priority < m.priority := by
  have hne : matchingCapabilities regs r ≠ [] := by
    intro habs
    rw [habs] at h2
    simp at h2
  obtain ⟨m, hm⟩ := Option.isSome_iff_exists.mp
    (firstMaxPriority_isSome (matchingCapabilities regs r) hne)
  refine ⟨m, ?_, ?_, firstMaxPriority_ge _ m hm, firstMaxPriority_first _ m hm⟩
  · rw [execute_invoked_eq_head, getCapabilitiesForRequest,
      head_sortByPriorityDesc, hm]
  · obtain ⟨l₁, l₂, heq, _⟩ := firstMaxPriority_first _ m hm
    rw [heq]
    simp

/-- Witness for `execute_picks_highest_priority`: two enabled matching
capabilities with priorities 1 and 7. -/
theorem execute_picks_highest_priority_witness :
    2 ≤ (matchingCapabilities
      [⟨"low", true, 1, fun _ => true⟩, ⟨"high", true, 7, fun _ => true⟩]
      ⟨"req1", "x", 0⟩).length ∧
    ∃ m, (execute
      [⟨"low", true, 1, fun _ => true⟩, ⟨"high", true, 7, fun _ => true⟩]
      (fun _ _ => ⟨"req1", true, none, some 42, 0⟩) 10 25
      ⟨"req1", "x", 0⟩).invoked = some m ∧
      m ∈ matchingCapabilities
        [⟨"low", true, 1, fun _ => true⟩, ⟨"high", true, 7, fun _ => true⟩]
        ⟨"req1", "x", 0⟩ ∧
      (∀ d ∈ matchingCapabilities
        [⟨"low", true, 1, fun _ => true⟩, ⟨"high", true, 7, fun _ => true⟩]
        ⟨"req1", "x", 0⟩, d.priority ≤ m.priority) ∧
      ∃ l₁ l₂, matchingCapabilities
        [⟨"low", true, 1, fun _ => true⟩, ⟨"high", true, 7, fun _ => true⟩]
        ⟨"req1", "x", 0⟩ = l₁ ++ m :: l₂ ∧
        ∀ d ∈ l₁, d.priority < m.priority :=
  ⟨by simp [matchingCapabilities],
   execute_picks_highest_priority _ _ 10 25 _ (by simp [matchingCapabilities])⟩

/-- Claim C6: when no enabled capability can handle the request, `execute`
returns (rather than throwing) a response whose result has `success =
false`, carries the no-capability-found error message for the request
type, uses the request id as `requestId`, and has the elapsed duration
stamped on it; no capability is invoked. -/
theorem execute_no_capability_failure (regs : List Capability)
    (capBehavior : Capability → CapRequest → CapResponse)
    (startTime endTime : Nat) (r : CapRequest)
    (h : matchingCapabilities regs r = []) :
    execute regs capBehavior startTime endTime r =
      { invoked := none
        response :=
          { requestId := r.id, success := false
            errorMsg := some ("No capability found to handle request type: " ++ r.rtype)
            value := none, duration := endTime - startTime } } := by
  rw [execute, getCapabilitiesForRequest, h]
  rfl

/-- Witness for `execute_no_capability_failure`: a request of type "x"
against a registry with no registered capabilities. -/
theorem execute_no_capability_failure_witness :
    matchingCapabilities [] ⟨"req9", "x", 0⟩ = [] ∧
    execute [] (fun _ _ => ⟨"req9", true, none, some 0, 0⟩) 100 140 ⟨"req9", "x", 0⟩ =
      { invoked := none
        response :=
          { requestId := "req9", success := false
            errorMsg := some ("No capability found to handle request type: " ++ "x")
            value := none, duration := 40 } } :=
  ⟨rfl, execute_no_capability_failure [] _ 100 140 ⟨"req9", "x", 0⟩ rfl⟩

end AgentCapability

namespace EnhancedExecutionPipeline

theorem mem_addVisited (v : List String) (i x : String) :
    x ∈ addVisited v i ↔ x ∈ v ∨ x = i := by
  rw [addVisited]
  by_cases h : i ∈ v
  · rw [if_pos h]
    exact ⟨Or.inl, fun hx => hx.elim id (fun he => he ▸ h)⟩
  · rw [if_neg h]
    simp

theorem mem_addAllVisited (ids : List String) :
    ∀ (v : List String) (x : String), x ∈ addAllVisited v ids ↔ x ∈ v ∨ x ∈ ids := by
  induction ids with
  | nil => intro v x; simp [addAllVisited]
  | cons i rest ih =>
      intro v x
      have hstep : addAllVisited v (i :: rest) = addAllVisited (addVisited v i) rest := rfl
      rw [hstep, ih, mem_addVisited]
      simp
      tauto

theorem addVisited_nodup {v : List String} (h : v.Nodup) (i : String) :
    (addVisited v i).Nodup := by
  rw [addVisited]
  by_cases him : i ∈ v
  · rw [if_pos him]; exact h
  · rw [if_neg him]
    exact h.append (List.nodup_singleton i)
      (fun x hx => by simp; exact fun he => him (he ▸ hx))

theorem addAllVisited_nodup (ids : List String) :
    ∀ v : List String, v.Nodup → (addAllVisited v ids).Nodup := by
  induction ids with
  | nil => intro v h; exact h
  | cons i rest ih => intro v h; exact ih (addVisited v i) (addVisited_nodup h i)

theorem length_le_addVisited (v : List String) (i : String) :
    v.length ≤ (addVisited v i).length := by
  rw [addVisited]
  by_cases him : i ∈ v
  · rw [if_pos him]
  · rw [if_neg him]; simp

theorem length_le_addAllVisited (ids : List String) :
    ∀ v : List String, v.length ≤ (addAllVisited v ids).length := by
  induction ids with
  | nil => intro v; exact le_refl _
  | cons i rest ih =>
      intro v
      exact le_trans (length_le_addVisited v i) (ih (addVisited v i))

theorem length_lt_addAllVisited (ids : List String) :
    ∀ (v : List String) (i : String), i ∈ ids → i ∉ v →
      v.length < (addAllVisited v ids).length := by
  induction ids with
  | nil => intro v i hi; exact absurd hi (List.not_mem_nil i)
  | cons j rest ih =>
      intro v i hi hni
      rcases List.mem_cons.mp hi with he | hrest
      · subst he
        have h1 : (addVisited v i).length = v.length + 1 := by
          rw [addVisited, if_neg hni]; simp
        have h2 := length_le_addAllVisited rest (addVisited v i)
        have hstep : addAllVisited v (i :: rest) = addAllVisited (addVisited v i) rest := rfl
        rw [hstep]
        omega
      · by_cases hij : i = j
        · subst hij
          have h1 : (addVisited v i).length = v.length + 1 := by
            rw [addVisited, if_neg hni]; simp
          have h2 := length_le_addAllVisited rest (addVisited v i)
          have hstep : addAllVisited v (i :: rest) = addAllVisited (addVisited v i) rest := rfl
          rw [hstep]
          omega
        · have hni2 : i ∉ addVisited v j := by
            rw [mem_addVisited]
            exact fun hx => hx.elim hni hij
          have h2 := ih (addVisited v j) i hrest hni2
          have h1 := length_le_addVisited v j
          have hstep : addAllVisited v (j :: rest) = addAllVisited (addVisited v j) rest := rfl
          rw [hstep]
          omega

theorem readyGroup_mem {stages : List PStage} {visited : List String} {s : PStage}
    (h : s ∈ readyGroup stages visited) :
    s ∈ stages ∧ s.id ∉ visited ∧ ∀ d ∈ s.deps, d ∈ visited := by
  rw [readyGroup] at h
  obtain ⟨hs, hcond⟩ := List.mem_filter.mp h
  simp at hcond
  exact ⟨hs, hcond.1, hcond.2⟩

theorem mem_readyGroup {stages : List PStage} {visited : List String} {s : PStage}
    (hs : s ∈ stages) (h1 : s.id ∉ visited) (h2 : ∀ d ∈ s.deps, d ∈ visited) :
    s ∈ readyGroup stages visited := by
  rw [readyGroup]
  refine List.mem_filter.mpr ⟨hs, ?_⟩
  simp
  exact ⟨h1, h2⟩

theorem eq_of_id_eq {stages : List PStage} (hnodup : (stages.map PStage.id).Nodup)
    {s t : PStage} (hs : s ∈ stages) (ht : t ∈ stages) (hid : s.id = t.id) : s = t := by
  induction stages with
  | nil => exact absurd hs (List.not_mem_nil s)
  | cons x rest ih =>
      rw [List.map_cons, List.nodup_cons] at hnodup
      rcases List.mem_cons.mp hs with hs1 | hs1 <;>
        rcases List.mem_cons.mp ht with ht1 | ht1
      · rw [hs1, ht1]
      · exfalso
        apply hnodup.1
        rw [← hs1, hid]
        exact List.mem_map_of_mem PStage.id ht1
      · exfalso
        apply hnodup.1
        rw [← ht1, ← hid]
        exact List.mem_map_of_mem PStage.id hs1
      · exact ih hnodup.2 hs1 ht1

theorem nodup_subset_length {l₁ l₂ : List String} (h1 : l₁.Nodup)
    (hsub : ∀ x ∈ l₁, x ∈ l₂) : l₁.length ≤ l₂.length :=
  calc l₁.length = l₁.toFinset.card := (List.toFinset_card_of_nodup h1).symm
  _ ≤ l₂.toFinset.card :=
      Finset.card_le_card (fun x hx => List.mem_toFinset.mpr (hsub x (List.mem_toFinset.mp hx)))
  _ ≤ l₂.length := List.toFinset_card_le l₂

theorem nodup_subset_length_lt {l₁ l₂ : List String} (h1 : l₁.Nodup)
    (hsub : ∀ x ∈ l₁, x ∈ l₂) (i : String) (hi : i ∈ l₂) (hni : i ∉ l₁) :
    l₁.length < l₂.length := by
  have hsub2 : l₁.toFinset ⊆ l₂.toFinset.erase i := by
    intro x hx
    refine Finset.mem_erase.mpr ⟨?_, List.mem_toFinset.mpr (hsub x (List.mem_toFinset.mp hx))⟩
    intro he
    exact hni (he ▸ List.mem_toFinset.mp hx)
  have h2 : l₁.toFinset.card ≤ l₂.toFinset.card - 1 := by
    have := Finset.card_le_card hsub2
    rwa [Finset.card_erase_of_mem (List.mem_toFinset.mpr hi)] at this
  have h3 : 1 ≤ l₂.toFinset.card := Finset.card_pos.mpr ⟨i, List.mem_toFinset.mpr hi⟩
  have h4 := List.toFinset_card_le l₂
  have h5 := (List.toFinset_card_of_nodup h1).symm
  omega

theorem buildOrderLoop_cycle_stuck (stages : List PStage)
    (hnodup : (stages.map PStage.id).Nodup)
    (S : Finset String) (hSne : S.Nonempty)
    (hScyc : ∀ id ∈ S, ∃ s ∈ stages, s.id = id ∧ ∃ d ∈ s.deps, d ∈ S) :
    ∀ (fuel : Nat) (visited : List String) (acc : List (List PStage)),
      visited.Nodup → (∀ x ∈ visited, x ∈ stages.map PStage.id) →
      (∀ id ∈ S, id ∉ visited) → stages.length + 1 ≤ fuel + visited.length →
      buildOrderLoop stages fuel visited acc = .error circularMsg := by
  intro fuel
  induction fuel with
  | zero =>
      intro visited acc hN hsub hdisj hfuel
      exfalso
      have hle := nodup_subset_length hN hsub
      rw [List.length_map] at hle
      omega
  | succ f ih =>
      intro visited acc hN hsub hdisj hfuel
      obtain ⟨id0, hid0⟩ := hSne
      obtain ⟨s0, hs0mem, hs0id, d0, hd0mem, hd0S⟩ := hScyc id0 hid0
      have hid0stages : id0 ∈ stages.map PStage.id :=
        hs0id ▸ List.mem_map_of_mem PStage.id hs0mem
      have hcond : visited.length < stages.length := by
        have := nodup_subset_length_lt hN hsub id0 hid0stages (hdisj id0 hid0)
        rwa [List.length_map] at this
      rw [buildOrderLoop, if_pos hcond]
      cases hg : readyGroup stages visited with
      | nil => simp [hg]
      | cons g gs =>
          simp only [hg, List.isEmpty_cons, if_neg]
          have hgmem : g ∈ readyGroup stages visited := hg ▸ List.mem_cons_self g gs
          have hgprops := readyGroup_mem hgmem
          apply ih
          · exact addAllVisited_nodup _ visited hN
          · intro x hx
            rcases (mem_addAllVisited _ visited x).mp hx with hx | hx
            · exact hsub x hx
            · obtain ⟨g', hg'mem, hg'id⟩ := List.mem_map.mp hx
              have : g' ∈ readyGroup stages visited := hg ▸ hg'mem
              exact hg'id ▸ List.mem_map_of_mem PStage.id (readyGroup_mem this).1
          · intro id hidS hmem
            rcases (mem_addAllVisited _ visited id).mp hmem with hmem | hmem
            · exact hdisj id hidS hmem
            · obtain ⟨g', hg'mem, hg'id⟩ := List.mem_map.mp hmem
              have hg'ready : g' ∈ readyGroup stages visited := hg ▸ hg'mem
              have hg'props := readyGroup_mem hg'ready
              obtain ⟨s, hsmem, hsid, d, hdmem, hdS⟩ := hScyc id hidS
              have : g' = s := eq_of_id_eq hnodup hg'props.1 hsmem (by rw [hg'id, hsid])
              subst this
              exact hdisj d hdS (hg'props.2.2 d hdmem)
          · have hlt : visited.length < (addAllVisited visited ((g :: gs).map PStage.id)).length := by
              apply length_lt_addAllVisited _ visited g.id
              · exact List.mem_map_of_mem PStage.id (List.mem_cons_self g gs)
              · exact hgprops.2.1
            omega

theorem perm_pair_cases {α : Type} {l : List α} {a b : α} (h : l.Perm [a, b]) :
    l = [a, b] ∨ l = [b, a] := by
  have hlen : l.length = 2 := by rw [h.length_eq]; rfl
  rcases l with _ | ⟨x, _ | ⟨y, _ | ⟨z, t⟩⟩⟩
  · simp at hlen
  · simp at hlen
  · have hx : x ∈ [a, b] := h.subset (List.mem_cons_self x [y])
    rcases List.mem_cons.mp hx with hxa | hxb
    · subst hxa
      have h2 : [y] = [b] := List.perm_singleton.mp h.cons_inv
      left
      rw [List.cons.injEq] at h2
      rw [h2.1]
    · have hxb2 : x = b := by simpa using hxb
      have hswap : ([a, b] : List α).Perm [b, a] := List.Perm.swap b a []
      have h3 : ([x, y] : List α).Perm [b, a] := h.trans hswap
      rw [hxb2] at h3
      have h2 : [y] = [a] := List.perm_singleton.mp h3.cons_inv
      right
      rw [List.cons.injEq] at h2
      rw [h2.1, hxb2]
  · simp at hlen

theorem readyGroup_perm {l₁ l₂ : List PStage} (h : l₁.Perm l₂) (visited : List String) :
    (readyGroup l₁ visited).Perm (readyGroup l₂ visited) :=
  h.filter _

theorem buildOrderLoop_step (stages : List PStage) (fuel : Nat) (visited : List String)
    (acc : List (List PStage)) (hcond : visited.length < stages.length)
    (g : PStage) (gs : List PStage) (hg : readyGroup stages visited = g :: gs) :
    buildOrderLoop stages (fuel + 1) visited acc =
      buildOrderLoop stages fuel (addAllVisited visited ((g :: gs).map PStage.id))
        (acc ++ [g :: gs]) := by
  rw [buildOrderLoop, if_pos hcond]
  simp only [hg, List.isEmpty_cons, if_neg]
  rfl

theorem buildOrderLoop_done (stages : List PStage) (fuel : Nat) (visited : List String)
    (acc : List (List PStage)) (hcond : ¬ visited.length < stages.length) :
    buildOrderLoop stages (fuel + 1) visited acc = .ok acc := by
  rw [buildOrderLoop, if_neg hcond]

theorem buildExecutionOrder_diamond (stages : List PStage) (hp : stages.Perm diamondStages) :
    ∃ g2 : List PStage, buildExecutionOrder stages = .ok [[dA], g2, [dD]] ∧
      (g2 = [dB, dC] ∨ g2 = [dC, dB]) := by
  have hlen : stages.length = 4 := by rw [hp.length_eq]; rfl
  have hg1 : readyGroup stages [] = [dA] := by
    have h := readyGroup_perm hp []
    have e1 : readyGroup diamondStages [] = [dA] := rfl
    rw [e1] at h
    exact h.eq_singleton
  have hg2p := readyGroup_perm hp ["A"]
  have e2 : readyGroup diamondStages ["A"] = [dB, dC] := rfl
  rw [e2] at hg2p
  rcases perm_pair_cases hg2p with hg2 | hg2
  · have hg3 : readyGroup stages ["A", "B", "C"] = [dD] := by
      have h := readyGroup_perm hp ["A", "B", "C"]
      have e3 : readyGroup diamondStages ["A", "B", "C"] = [dD] := rfl
      rw [e3] at h
      exact h.eq_singleton
    refine ⟨[dB, dC], ?_, Or.inl rfl⟩
    rw [buildExecutionOrder, hlen]
    rw [buildOrderLoop_step stages 4 [] [] (by rw [hlen]; decide) dA [] hg1]
    have ha1 : addAllVisited [] ([dA].map PStage.id) = ["A"] := rfl
    rw [ha1]
    rw [buildOrderLoop_step stages 3 ["A"] _ (by rw [hlen]; decide) dB [dC] hg2]
    have ha2 : addAllVisited ["A"] ([dB, dC].map PStage.id) = ["A", "B", "C"] := rfl
    rw [ha2]
    rw [buildOrderLoop_step stages 2 ["A", "B", "C"] _ (by rw [hlen]; decide) dD [] hg3]
    have ha3 : addAllVisited ["A", "B", "C"] ([dD].map PStage.id) = ["A", "B", "C", "D"] := rfl
    rw [ha3]
    rw [buildOrderLoop_done stages 1 ["A", "B", "C", "D"] _ (by rw [hlen]; decide)]
    rfl
  · have hg3 : readyGroup stages ["A", "C", "B"] = [dD] := by
      have h := readyGroup_perm hp ["A", "C", "B"]
      have e3 : readyGroup diamondStages ["A", "C", "B"] = [dD] := rfl
      rw [e3] at h
      exact h.eq_singleton
    refine ⟨[dC, dB], ?_, Or.inr rfl⟩
    rw [buildExecutionOrder, hlen]
    rw [buildOrderLoop_step stages 4 [] [] (by rw [hlen]; decide) dA [] hg1]
    have ha1 : addAllVisited [] ([dA].map PStage.id) = ["A"] := rfl
    rw [ha1]
    rw [buildOrderLoop_step stages 3 ["A"] _ (by rw [hlen]; decide) dC [dB] hg2]
    have ha2 : addAllVisited ["A"] ([dC, dB].map PStage.id) = ["A", "C", "B"] := rfl
    rw [ha2]
    rw [buildOrderLoop_step stages 2 ["A", "C", "B"] _ (by rw [hlen]; decide) dD [] hg3]
    have ha3 : addAllVisited ["A", "C", "B"] ([dD].map PStage.id) = ["A", "C", "B", "D"] := rfl
    rw [ha3]
    rw [buildOrderLoop_done stages 1 ["A", "C", "B", "D"] _ (by rw [hlen]; decide)]
    rfl

theorem buildOrderLoop_ok_props (stages : List PStage)
    (hnodup : (stages.map PStage.id).Nodup) :
    ∀ (fuel : Nat) (visited : List String) (acc waves : List (List PStage)),
      buildOrderLoop stages fuel visited acc = .ok waves →
      visited.Nodup → (∀ x ∈ visited, x ∈ stages.map PStage.id) →
      (∀ s ∈ stages, s.id ∈ visited → ∃ w ∈ acc, s ∈ w) →
      (∀ w ∈ acc, ∀ s ∈ w, s ∈ stages) →
      (acc.flatten.map PStage.id).Nodup →
      (∀ x ∈ acc.flatten.map PStage.id, x ∈ visited) →
      ((∀ s ∈ stages, ∃ w ∈ waves, s ∈ w) ∧
       (∀ w ∈ waves, ∀ s ∈ w, s ∈ stages) ∧
       (waves.flatten.map PStage.id).Nodup) := by
  intro fuel
  induction fuel with
  | zero =>
      intro visited acc waves h
      exact absurd h (by rw [buildOrderLoop]; exact fun hx => Except.noConfusion hx)
  | succ f ih =>
      intro visited acc waves h hN hsub hsched helem hjoinN hjoinsub
      rw [buildOrderLoop] at h
      by_cases hcond : visited.length < stages.length
      · rw [if_pos hcond] at h
        cases hg : readyGroup stages visited with
        | nil =>
            rw [hg] at h
            exact absurd h (fun hx => Except.noConfusion hx)
        | cons g gs =>
            rw [hg] at h
            simp only [List.isEmpty_cons] at h
            have hgroupstages : ∀ s ∈ g :: gs, s ∈ stages := by
              intro s hs
              exact (readyGroup_mem (hg ▸ hs)).1
            have hgroupnotvis : ∀ s ∈ g :: gs, s.id ∉ visited := by
              intro s hs
              exact (readyGroup_mem (hg ▸ hs)).2.1
            have hgroupidsN : ((g :: gs).map PStage.id).Nodup := by
              have hsl : (readyGroup stages visited).Sublist stages := List.filter_sublist stages
              have := (hsl.map PStage.id).nodup hnodup
              rwa [hg] at this
            refine ih (addAllVisited visited ((g :: gs).map PStage.id))
              (acc ++ [g :: gs]) waves h
              (addAllVisited_nodup _ visited hN) ?_ ?_ ?_ ?_ ?_
            · intro x hx
              rcases (mem_addAllVisited _ visited x).mp hx with hx | hx
              · exact hsub x hx
              · obtain ⟨g', hg'mem, hg'id⟩ := List.mem_map.mp hx
                exact hg'id ▸ List.mem_map_of_mem PStage.id (hgroupstages g' hg'mem)
            · intro s hs hsid
              rcases (mem_addAllVisited _ visited s.id).mp hsid with hv | hv
              · obtain ⟨w, hw, hsw⟩ := hsched s hs hv
                exact ⟨w, List.mem_append_left _ hw, hsw⟩
              · obtain ⟨g', hg'mem, hg'id⟩ := List.mem_map.mp hv
                have : g' = s := eq_of_id_eq hnodup (hgroupstages g' hg'mem) hs hg'id
                subst this
                exact ⟨g :: gs, List.mem_append_right _ (List.mem_singleton_self _), hg'mem⟩
            · intro w hw s hs
              rcases List.mem_append.mp hw with hw | hw
              · exact helem w hw s hs
              · rw [List.mem_singleton.mp hw] at hs
                exact hgroupstages s hs
            · rw [List.flatten_append, List.map_append]
              refine hjoinN.append ?_ ?_
              · simpa using hgroupidsN
              · intro x hx hx2
                have hxv := hjoinsub x hx
                have hx3 : x ∈ (g :: gs).map PStage.id := by simpa using hx2
                obtain ⟨g', hg'mem, hg'id⟩ := List.mem_map.mp hx3
                exact hgroupnotvis g' hg'mem (hg'id ▸ hxv)
            · intro x hx
              rw [List.flatten_append, List.map_append] at hx
              rcases List.mem_append.mp hx with hx | hx
              · exact (mem_addAllVisited _ visited x).mpr (Or.inl (hjoinsub x hx))
              · refine (mem_addAllVisited _ visited x).mpr (Or.inr ?_)
                simpa using hx
      · rw [if_neg hcond] at h
        have hacc : acc = waves := by
          cases h
          rfl
        subst hacc
        have hallvis : ∀ s ∈ stages, s.id ∈ visited := by
          intro s hs
          by_contra hnot
          have := nodup_subset_length_lt hN hsub s.id
            (List.mem_map_of_mem PStage.id hs) hnot
          rw [List.length_map] at this
          omega
        exact ⟨fun s hs => hsched s hs (hallvis s hs), helem, hjoinN⟩

theorem buildExecutionOrder_ok_props (stages : List PStage)
    (hnodup : (stages.map PStage.id).Nodup) (waves : List (List PStage))
    (h : buildExecutionOrder stages = .ok waves) :
    (∀ s ∈ stages, ∃ w ∈ waves, s ∈ w) ∧
    (∀ w ∈ waves, ∀ s ∈ w, s ∈ stages) ∧
    (waves.flatten.map PStage.id).Nodup := by
  refine buildOrderLoop_ok_props stages hnodup (stages.length + 1) [] [] waves h
    (List.nodup_nil) (by simp) (by simp) (by simp) (by simp) (by simp)

theorem lookupResult_mapSet_self (m : List (String × StageOutcome)) (k : String)
    (v : StageOutcome) : lookupResult (mapSet m k v) k = some v := by
  rw [mapSet]
  by_cases hany : m.any (fun p => p.1 == k)
  · rw [if_pos hany]
    revert hany
    induction m with
    | nil => intro hany; simp at hany
    | cons p m' ih =>
        intro hany
        by_cases hp : p.1 = k
        · simp [lookupResult, hp]
        · have hany' : m'.any (fun p => p.1 == k) := by
            rcases List.any_eq_true.mp hany with ⟨q, hq, hqk⟩
            rcases List.mem_cons.mp hq with hq1 | hq1
            · have hqq : (p.1 == k) = true := by rw [← hq1]; exact hqk
              exact absurd (by simpa using hqq) hp
            · exact List.any_eq_true.mpr ⟨q, hq1, hqk⟩
          simp only [List.map_cons, lookupResult]
          simp [hp]
          simpa using ih hany'
  · rw [if_neg hany]
    revert hany
    induction m with
    | nil => intro _; simp [lookupResult]
    | cons p m' ih =>
        intro hany
        have hp : ¬ p.1 = k := fun he =>
          hany (List.any_eq_true.mpr ⟨p, List.mem_cons_self p m', by simp [he]⟩)
        have hany' : ¬ (m'.any (fun p => p.1 == k) = true) := by
          intro hx
          rcases List.any_eq_true.mp hx with ⟨q, hq, hqk⟩
          exact hany (List.any_eq_true.mpr ⟨q, List.mem_cons_of_mem p hq, hqk⟩)
        simp only [List.cons_append, lookupResult]
        simp [hp]
        exact ih hany'

theorem lookupResult_mapSet_ne (m : List (String × StageOutcome)) (k k' : String)
    (v : StageOutcome) (hne : k' ≠ k) :
    lookupResult (mapSet m k v) k' = lookupResult m k' := by
  rw [mapSet]
  by_cases hany : m.any (fun p => p.1 == k)
  · rw [if_pos hany]
    clear hany
    induction m with
    | nil => rfl
    | cons p m' ih =>
        by_cases hp : p.1 = k
        · simp only [List.map_cons, lookupResult]
          simp [hp, Ne.symm hne]
          simpa using ih
        · simp only [List.map_cons, lookupResult]
          simp [hp]
          by_cases hpk : p.1 = k'
          · simp [hpk]
          · simp [hpk]
            simpa using ih
  · rw [if_neg hany]
    clear hany
    induction m with
    | nil => simp [lookupResult, Ne.symm hne]
    | cons p m' ih =>
        simp only [List.cons_append, lookupResult]
        by_cases hpk : p.1 = k'
        · simp [hpk]
        · simp [hpk]
          exact ih

theorem executeStage_ok_of_tolerated (exec : PStage → Except String Nat)
    (s : PStage) (results : List (String × StageOutcome))
    (h : stageTolerated exec s) :
    executeStage exec s results = .ok (mapSet results s.id (stageRecord exec s)) := by
  cases hex : exec s with
  | ok v => simp [executeStage, stageRecord, hex]
  | error e =>
      have hopt : s.optional = true := by
        rcases h with hopt | ⟨v, hv⟩
        · exact hopt
        · rw [hex] at hv
          exact Except.noConfusion hv
      simp [executeStage, stageRecord, hex, hopt]

theorem runWave_ok (exec : PStage → Except String Nat) (l : List PStage) :
    ∀ results, (∀ s ∈ l, stageTolerated exec s) →
      runWave exec l results =
        (.ok (l.foldl (fun m s => mapSet m s.id (stageRecord exec s)) results),
         l.map PStage.id) := by
  induction l with
  | nil => intro results _; rfl
  | cons s rest ih =>
      intro results htol
      have hstage := executeStage_ok_of_tolerated exec s results
        (htol s (List.mem_cons_self s rest))
      have hrest : ∀ t ∈ rest, stageTolerated exec t :=
        fun t ht => htol t (List.mem_cons_of_mem s ht)
      rw [runWave, hstage]
      simp only []
      rw [ih _ hrest]
      simp

theorem runWave_err (exec : PStage → Except String Nat) (l : List PStage) :
    ∀ results s, s ∈ l → ¬ stageTolerated exec s →
      ∃ s' e, s' ∈ l ∧ s'.optional = false ∧ exec s' = .error e ∧
        (runWave exec l results).1 = .error e := by
  induction l with
  | nil => intro results s hs; exact absurd hs (List.not_mem_nil s)
  | cons s0 rest ih =>
      intro results s hs hbad
      by_cases h0 : stageTolerated exec s0
      · have hs' : s ∈ rest := by
          rcases List.mem_cons.mp hs with he | hr
          · exact absurd (he ▸ h0) hbad
          · exact hr
        have hstage := executeStage_ok_of_tolerated exec s0 results h0
        obtain ⟨s', e, hmem, hopt, herr, hrun⟩ :=
          ih (mapSet results s0.id (stageRecord exec s0)) s hs' hbad
        refine ⟨s', e, List.mem_cons_of_mem s0 hmem, hopt, herr, ?_⟩
        rw [runWave, hstage]
        exact hrun
      · have hopt : s0.optional = false := by
          cases hvb : s0.optional with
          | false => rfl
          | true => exact absurd (Or.inl hvb) h0
        cases hex : exec s0 with
        | ok v => exact absurd (Or.inr ⟨v, hex⟩) h0
        | error e0 =>
            have hstage : executeStage exec s0 results = .error e0 := by
              simp [executeStage, hex, hopt]
            refine ⟨s0, e0, List.mem_cons_self s0 rest, hopt, hex, ?_⟩
            rw [runWave, hstage]

theorem runWaves_ok (exec : PStage → Except String Nat) (ws : List (List PStage)) :
    ∀ results, (∀ w ∈ ws, ∀ s ∈ w, stageTolerated exec s) →
      runWaves exec ws results =
        (.ok (ws.flatten.foldl (fun m s => mapSet m s.id (stageRecord exec s)) results),
         ws.flatten.map PStage.id) := by
  induction ws with
  | nil => intro results _; rfl
  | cons w rest ih =>
      intro results htol
      have hw := runWave_ok exec w results (htol w (List.mem_cons_self w rest))
      have hrest : ∀ w' ∈ rest, ∀ s ∈ w', stageTolerated exec s :=
        fun w' hw' s hs => htol w' (List.mem_cons_of_mem w hw') s hs
      rw [runWaves, hw]
      simp only []
      rw [ih _ hrest]
      simp [List.foldl_append]

theorem runWaves_err (exec : PStage → Except String Nat) (ws : List (List PStage)) :
    ∀ results, (∃ w ∈ ws, ∃ s ∈ w, ¬ stageTolerated exec s) →
      ∃ s' e, s' ∈ ws.flatten ∧ s'.optional = false ∧ exec s' = .error e ∧
        (runWaves exec ws results).1 = .error e := by
  induction ws with
  | nil =>
      intro results h
      obtain ⟨w, hw, _⟩ := h
      exact absurd hw (List.not_mem_nil w)
  | cons w rest ih =>
      intro results hbad
      by_cases hall : ∀ s ∈ w, stageTolerated exec s
      · obtain ⟨w0, hw0, s0, hs0, hbad0⟩ := hbad
        have hw0rest : w0 ∈ rest := by
          rcases List.mem_cons.mp hw0 with he | hr
          · exact absurd (hall s0 (he ▸ hs0)) hbad0
          · exact hr
        have hwave := runWave_ok exec w results hall
        obtain ⟨s', e, hm, ho, he, hrun⟩ :=
          ih (w.foldl (fun m s => mapSet m s.id (stageRecord exec s)) results)
            ⟨w0, hw0rest, s0, hs0, hbad0⟩
        refine ⟨s', e, ?_, ho, he, ?_⟩
        · rw [List.flatten_cons]
          exact List.mem_append_right w hm
        · rw [runWaves, hwave]
          simp only []
          exact hrun
      · push_neg at hall
        obtain ⟨s1, hs1, hbad1⟩ := hall
        obtain ⟨s', e, hm, ho, he, hrun⟩ := runWave_err exec w results s1 hs1 hbad1
        rcases hres : runWave exec w results with ⟨res, log⟩
        rw [hres] at hrun
        simp only [] at hrun
        subst hrun
        refine ⟨s', e, ?_, ho, he, ?_⟩
        · rw [List.flatten_cons]
          exact List.mem_append_left _ hm
        · rw [runWaves, hres]

theorem foldl_mapSet_lookup (exec : PStage → Except String Nat) (l : List PStage) :
    ∀ m, (l.map PStage.id).Nodup →
      ((∀ s ∈ l, lookupResult
          (l.foldl (fun m s => mapSet m s.id (stageRecord exec s)) m) s.id =
          some (stageRecord exec s)) ∧
       (∀ k, k ∉ l.map PStage.id →
        lookupResult (l.foldl (fun m s => mapSet m s.id (stageRecord exec s)) m) k =
          lookupResult m k)) := by
  induction l with
  | nil =>
      intro m _
      exact ⟨fun s hs => absurd hs (List.not_mem_nil s), fun k _ => rfl⟩
  | cons s0 rest ih =>
      intro m hN
      rw [List.map_cons, List.nodup_cons] at hN
      obtain ⟨ih1, ih2⟩ := ih (mapSet m s0.id (stageRecord exec s0)) hN.2
      constructor
      · intro s hs
        rcases List.mem_cons.mp hs with he | hr
        · subst he
          rw [List.foldl_cons, ih2 s.id hN.1]
          exact lookupResult_mapSet_self m s.id (stageRecord exec s)
        · rw [List.foldl_cons]
          exact ih1 s hr
      · intro k hk
        have hk0 : k ≠ s0.id := fun he => hk (he ▸ List.mem_cons_self _ _)
        have hkrest : k ∉ rest.map PStage.id :=
          fun hx => hk (List.mem_cons_of_mem _ hx)
        rw [List.foldl_cons, ih2 k hkrest, lookupResult_mapSet_ne m s0.id k _ hk0]

/-- Claim C4 counterexample: `buildExecutionOrder` does not return the
literal waves `[[A], [B, C], [D]]` for every input ordering — for the input
ordering `[A, C, B, D]` the middle wave lists `C` before `B`, following
input order.  (Wave membership is order-independent; see the amended
theorem.) -/
theorem buildExecutionOrder_input_order_counterexample :
    buildExecutionOrder [dA, dC, dB, dD] = .ok [[dA], [dC, dB], [dD]] ∧
    ([[dA], [dC, dB], [dD]] : List (List PStage)) ≠ [[dA], [dB, dC], [dD]] :=
  ⟨rfl, by decide⟩

/-- Claim C4 as amended: for every input ordering of the diamond pipeline
{A; B after A; C after A; D after B and C}, `buildExecutionOrder` computes
exactly three waves whose id sets are `{A}`, `{B, C}`, `{D}` — membership is
input-order independent, while order inside a wave follows the input list —
and for every stage list whose dependency relation contains a cycle (with
the unique-stage-ids invariant the spec imposes), the build fails with the
circular-dependency error and no stage executor is ever invoked. -/
theorem buildExecutionOrder_waves_amended :
    (∀ stages : List PStage, stages.Perm diamondStages →
      waveIdSets stages = some [{"A"}, {"B", "C"}, {"D"}]) ∧
    (∀ stages : List PStage, (stages.map PStage.id).Nodup → HasCycle stages →
      buildExecutionOrder stages = .error circularMsg ∧
      ∀ exec : PStage → Except String Nat,
        (executePipeline exec stages).invoked = []) := by
  constructor
  · intro stages hp
    obtain ⟨g2, hbo, hg2⟩ := buildExecutionOrder_diamond stages hp
    rw [waveIdSets, hbo]
    rcases hg2 with hg2 | hg2 <;> subst hg2
    · decide
    · show some [(List.map PStage.id [dA]).toFinset,
        (List.map PStage.id [dC, dB]).toFinset,
        (List.map PStage.id [dD]).toFinset] = some [{"A"}, {"B", "C"}, {"D"}]
      rw [Finset.pair_comm "B" "C"]
      decide
  · intro stages hnodup hcyc
    obtain ⟨S, hne, hScyc⟩ := hcyc
    have hbo : buildExecutionOrder stages = .error circularMsg := by
      rw [buildExecutionOrder]
      exact buildOrderLoop_cycle_stuck stages hnodup S hne hScyc
        (stages.length + 1) [] [] List.nodup_nil (by simp) (by simp) (by simp)
    refine ⟨hbo, fun exec => ?_⟩
    rw [executePipeline, hbo]

/-- Witness for `buildExecutionOrder_waves_amended`: the reversed diamond
ordering, and the two-stage cycle P <-> Q. -/
theorem buildExecutionOrder_waves_amended_witness :
    waveIdSets [dD, dC, dB, dA] = some [{"A"}, {"B", "C"}, {"D"}] ∧
    buildExecutionOrder [⟨"P", ["Q"], false⟩, ⟨"Q", ["P"], false⟩] =
      .error circularMsg ∧
    (executePipeline (fun _ => .ok 0)
      [⟨"P", ["Q"], false⟩, ⟨"Q", ["P"], false⟩]).invoked = [] := by
  have h2 := buildExecutionOrder_waves_amended.2
    [⟨"P", ["Q"], false⟩, ⟨"Q", ["P"], false⟩] (by decide)
    ⟨{"P", "Q"}, by decide, by decide⟩
  exact ⟨buildExecutionOrder_waves_amended.1 [dD, dC, dB, dA] (by decide),
    h2.1, h2.2 (fun _ => .ok 0)⟩

/-- Claim C7: with unique stage ids and an acyclic pipeline (waves computed
by `buildExecutionOrder`), (a) if every non-optional stage succeeds, the
execution completes with status `completed`, every stage executor is
invoked (later stages still run), a throwing optional stage gets its error
recorded in the stage-result map, and every succeeding stage gets its value
recorded; and (b) if some non-optional stage throws, the execution aborts
with status `failed` and the error of a failing non-optional stage recorded
on the execution object. -/
theorem executePipeline_failure_containment
    (exec : PStage → Except String Nat) (stages : List PStage)
    (hnodup : (stages.map PStage.id).Nodup)
    (waves : List (List PStage)) (hwaves : buildExecutionOrder stages = .ok waves) :
    ((∀ s ∈ stages, s.optional = false → ∃ v, exec s = .ok v) →
      (executePipeline exec stages).status = "completed" ∧
      (∀ s ∈ stages, s.id ∈ (executePipeline exec stages).invoked) ∧
      (∀ s ∈ stages, ∀ e, exec s = .error e →
        lookupResult (executePipeline exec stages).results s.id =
          some (.failedOptional e)) ∧
      (∀ s ∈ stages, ∀ v, exec s = .ok v →
        lookupResult (executePipeline exec stages).results s.id =
          some (.value v))) ∧
    ((∃ s ∈ stages, s.optional = false ∧ ∃ e, exec s = .error e) →
      (executePipeline exec stages).status = "failed" ∧
      ∃ s e, s ∈ stages ∧ s.optional = false ∧ exec s = .error e ∧
        (executePipeline exec stages).errorMsg = some e) := by
  obtain ⟨hcomp, helem, hjoinN⟩ := buildExecutionOrder_ok_props stages hnodup waves hwaves
  constructor
  · intro hallok
    have htol : ∀ w ∈ waves, ∀ s ∈ w, stageTolerated exec s := by
      intro w hw s hs
      cases hvb : s.optional with
      | true => exact Or.inl hvb
      | false => exact Or.inr (hallok s (helem w hw s hs) hvb)
    have hrun := runWaves_ok exec waves [] htol
    have hpipe : executePipeline exec stages =
        ⟨"completed", none,
          waves.flatten.foldl (fun m s => mapSet m s.id (stageRecord exec s)) [],
          waves.flatten.map PStage.id⟩ := by
      rw [executePipeline, hwaves]
      show (match runWaves exec waves [] with
        | (.ok results, log) =>
            ({ status := "completed", errorMsg := none, results := results,
               invoked := log } : ExecutionOutcome)
        | (.error e, log) =>
            { status := "failed", errorMsg := some e, results := [], invoked := log }) = _
      rw [hrun]
    have hmemflat : ∀ s ∈ stages, s ∈ waves.flatten := by
      intro s hs
      obtain ⟨w, hw, hsw⟩ := hcomp s hs
      exact List.mem_flatten.mpr ⟨w, hw, hsw⟩
    obtain ⟨hlook1, _⟩ := foldl_mapSet_lookup exec waves.flatten [] hjoinN
    refine ⟨by rw [hpipe], ?_, ?_, ?_⟩
    · intro s hs
      rw [hpipe]
      exact List.mem_map_of_mem PStage.id (hmemflat s hs)
    · intro s hs e he
      rw [hpipe]
      have := hlook1 s (hmemflat s hs)
      rwa [show stageRecord exec s = .failedOptional e by rw [stageRecord, he]] at this
    · intro s hs v hv
      rw [hpipe]
      have := hlook1 s (hmemflat s hs)
      rwa [show stageRecord exec s = .value v by rw [stageRecord, hv]] at this
  · intro hbad
    obtain ⟨s, hs, hopt, e, he⟩ := hbad
    have hbad2 : ¬ stageTolerated exec s := by
      rintro (ht | ⟨v, hv⟩)
      · rw [hopt] at ht
        exact Bool.false_ne_true ht
      · rw [he] at hv
        exact Except.noConfusion hv
    obtain ⟨w, hw, hsw⟩ := hcomp s hs
    obtain ⟨s', e', hm', ho', he', hrun⟩ :=
      runWaves_err exec waves [] ⟨w, hw, s, hsw, hbad2⟩
    have hs'stage : s' ∈ stages := by
      obtain ⟨w', hw', hsw'⟩ := List.mem_flatten.mp hm'
      exact helem w' hw' s' hsw'
    rcases hres : runWaves exec waves [] with ⟨res, log⟩
    rw [hres] at hrun
    simp only [] at hrun
    subst hrun
    have hpipe : executePipeline exec stages = ⟨"failed", some e', [], log⟩ := by
      rw [executePipeline, hwaves]
      show (match runWaves exec waves [] with
        | (.ok results, log) =>
            ({ status := "completed", errorMsg := none, results := results,
               invoked := log } : ExecutionOutcome)
        | (.error e, log) =>
            { status := "failed", errorMsg := some e, results := [], invoked := log }) = _
      rw [hres]
    rw [hpipe]
    exact ⟨rfl, s', e', hs'stage, ho', he', rfl⟩

/-- Witness for `executePipeline_failure_containment`: the pipeline
[s1; c optional; d after s1] with an executor that throws exactly on `c`
completes, records the error under `c`, and still runs `d`; the same
pipeline with an executor that throws on the non-optional `d` fails with
that error recorded. -/
theorem executePipeline_failure_containment_witness :
    ((executePipeline
        (fun s => if s.id = "c" then .error "boom" else .ok 1)
        [⟨"s1", [], false⟩, ⟨"c", [], true⟩, ⟨"d", ["s1"], false⟩]).status =
      "completed" ∧
     "d" ∈ (executePipeline
        (fun s => if s.id = "c" then .error "boom" else .ok 1)
        [⟨"s1", [], false⟩, ⟨"c", [], true⟩, ⟨"d", ["s1"], false⟩]).invoked ∧
     lookupResult (executePipeline
        (fun s => if s.id = "c" then .error "boom" else .ok 1)
        [⟨"s1", [], false⟩, ⟨"c", [], true⟩, ⟨"d", ["s1"], false⟩]).results "c" =
      some (.failedOptional "boom")) ∧
    ((executePipeline
        (fun s => if s.id = "d" then .error "fatal" else .ok 1)
        [⟨"s1", [], false⟩, ⟨"c", [], true⟩, ⟨"d", ["s1"], false⟩]).status =
      "failed" ∧
     (executePipeline
        (fun s => if s.id = "d" then .error "fatal" else .ok 1)
        [⟨"s1", [], false⟩, ⟨"c", [], true⟩, ⟨"d", ["s1"], false⟩]).errorMsg =
      some "fatal") := by
  have hA := (executePipeline_failure_containment
    (fun s => if s.id = "c" then .error "boom" else .ok 1)
    [⟨"s1", [], false⟩, ⟨"c", [], true⟩, ⟨"d", ["s1"], false⟩]
    (by decide) [[⟨"s1", [], false⟩, ⟨"c", [], true⟩], [⟨"d", ["s1"], false⟩]]
    rfl).1 (by
      intro s hs hopt
      fin_cases hs
      · exact ⟨1, rfl⟩
      · simp at hopt
      · exact ⟨1, rfl⟩)
  have hB := (executePipeline_failure_containment
    (fun s => if s.id = "d" then .error "fatal" else .ok 1)
    [⟨"s1", [], false⟩, ⟨"c", [], true⟩, ⟨"d", ["s1"], false⟩]
    (by decide) [[⟨"s1", [], false⟩, ⟨"c", [], true⟩], [⟨"d", ["s1"], false⟩]]
    rfl).2 ⟨⟨"d", ["s1"], false⟩, by decide, rfl, "fatal", rfl⟩
  refine ⟨⟨hA.1, ?_, ?_⟩, hB.1, ?_⟩
  · exact hA.2.1 ⟨"d", ["s1"], false⟩ (by decide)
  · exact hA.2.2.1 ⟨"c", [], true⟩ (by decide) "boom" rfl
  · obtain ⟨s, e, hs, hopt, he, hmsg⟩ := hB.2
    have : e = "fatal" := by
      fin_cases hs
      · simp at he
      · simp at hopt
      · simp at he
        exact he.symm
    rwa [this] at hmsg

end EnhancedExecutionPipeline
